import Mathlib

/-!
Verification of the stop-name encoder/decoder module
(`stop_name_encoder.py`).

The module works on Python strings; we embed a Python `str` as a
`List Char` (`Str` below).  All functions of the module are pure, so the
embedding is direct: `decode_stop_name`, `encode_stop_name` and
`update_stop_name_from_ui` below are line-by-line translations of the
Python functions of the same names.
-/

/-- A Python string, embedded as its list of characters. -/
abbrev Str := List Char

/-- Embedding of Python's `s.startswith(p)` for `s p : str`. -/
def startswith : Str → Str → Bool
  | _, [] => true
  | [], _ :: _ => false
  | c :: s, p :: ps => p == c && startswith s ps

/-- Embedding of Python's `s.endswith(c)` for a one-character suffix `c`
(the only form the module uses): true iff the last character of `s` is `c`. -/
def endswith (s : Str) (c : Char) : Bool :=
  s.getLast? == some c

/-- Translation of the `StopNameProperties` class: the field defaults are the
ones assigned in `__init__` (lines 28-33). -/
structure StopNameProperties where
  autoskip : Bool := false
  w8w6_different : Bool := false
  chi_pages : Int := 1
  eng_multiline : Bool := false
  base_name : Str := []
deriving DecidableEq

/-- Lines 51-54 of `decode_stop_name`: the suffix check.  Returns the
`eng_multiline` flag and the remaining name (`name[:-1]` when the name ends
in `'!'`, the name unchanged otherwise). -/
def strip_em (name : Str) : Bool × Str :=
  if endswith name '!' then (true, name.dropLast) else (false, name)

/-- Lines 56-93 of `decode_stop_name`: the prefix `if/elif` chain, checked in
the source's order (longest first), producing the decoded properties.  `em` is
the `eng_multiline` flag already determined by the suffix check; fields not
assigned in a branch keep their `__init__` defaults, as in the source. -/
def parse_pfx (em : Bool) (name : Str) : StopNameProperties :=
  if startswith name ['_', '!', '~'] then
    { autoskip := true, w8w6_different := true, chi_pages := 3,
      eng_multiline := em, base_name := name.drop 3 }
  else if startswith name ['_', '~'] then
    { autoskip := true, w8w6_different := true, chi_pages := 2,
      eng_multiline := em, base_name := name.drop 2 }
  else if startswith name ['_', '!', '!'] then
    { autoskip := true, chi_pages := 3,
      eng_multiline := em, base_name := name.drop 3 }
  else if startswith name ['_', '!'] then
    { autoskip := true, chi_pages := 2,
      eng_multiline := em, base_name := name.drop 2 }
  else if startswith name ['!', '~'] then
    { w8w6_different := true, chi_pages := 3,
      eng_multiline := em, base_name := name.drop 2 }
  else if startswith name ['~'] then
    { w8w6_different := true, chi_pages := 2,
      eng_multiline := em, base_name := name.drop 1 }
  else if startswith name ['!', '!'] then
    { chi_pages := 3, eng_multiline := em, base_name := name.drop 2 }
  else if startswith name ['!'] then
    { chi_pages := 2, eng_multiline := em, base_name := name.drop 1 }
  else if startswith name ['_'] then
    { autoskip := true, eng_multiline := em, base_name := name.drop 1 }
  else
    { eng_multiline := em, base_name := name }

/-- Translation of `decode_stop_name` (lines 36-94): first the suffix check,
then the prefix chain on the remaining string. -/
def decode_stop_name (stop_name : Str) : StopNameProperties :=
  let r := strip_em stop_name
  parse_pfx r.1 r.2

/-- Translation of `encode_stop_name` (lines 97-146). -/
def encode_stop_name (base_name : Str) (autoskip : Bool) (w8w6_different : Bool)
    (chi_pages : Int) (eng_at_count : Int) : Str :=
  let name := base_name
  let pfx : Str :=
    if w8w6_different then
      let p : Str :=
        if chi_pages == 2 then ['~']
        else if chi_pages == 3 then ['!', '~']
        else []
      if autoskip then '_' :: p else p
    else
      let p : Str :=
        if chi_pages == 2 then ['!']
        else if chi_pages == 3 then ['!', '!']
        else []
      if autoskip then
        let p2 := '_' :: p
        -- the source's `if prefix == "_": prefix = "_"` (lines 138-139), a no-op
        if p2 == ['_'] then ['_'] else p2
      else p
  let sfx : Str := if eng_at_count > 2 then ['!'] else []
  (pfx ++ name) ++ sfx

/-- Translation of `update_stop_name_from_ui` (lines 149-172). -/
def update_stop_name_from_ui (current_name : Str) (autoskip : Bool)
    (w8w6_different : Bool) (chi_pages : Int) (eng_display : Str) : Str :=
  let props := decode_stop_name current_name
  let eng_at_count : Int := (eng_display.count '@' : Nat)
  encode_stop_name props.base_name autoskip w8w6_different chi_pages eng_at_count

/-- The nine recognized prefix tokens, in the priority order in which the
decoder's `if/elif` chain checks them. -/
def tokens : List Str :=
  [['_', '!', '~'], ['_', '~'], ['_', '!', '!'], ['_', '!'],
   ['!', '~'], ['~'], ['!', '!'], ['!'], ['_']]

/-- The ten prefixes `encode_stop_name` can produce (the nine tokens plus
the empty prefix). -/
def enc_pfx_list : List Str :=
  [[], ['~'], ['!', '~'], ['_', '~'], ['_', '!', '~'],
   ['!'], ['!', '!'], ['_'], ['_', '!'], ['_', '!', '!']]

/-- The prefix token the decoder's table associates with a given flag
combination: the inverse of the assignments made by the branches of
`parse_pfx` (empty for the all-default no-token row). -/
def tok_of (p : StopNameProperties) : Str :=
  if p.autoskip && p.w8w6_different && (p.chi_pages == 3) then ['_', '!', '~']
  else if p.autoskip && p.w8w6_different && (p.chi_pages == 2) then ['_', '~']
  else if p.autoskip && !p.w8w6_different && (p.chi_pages == 3) then ['_', '!', '!']
  else if p.autoskip && !p.w8w6_different && (p.chi_pages == 2) then ['_', '!']
  else if !p.autoskip && p.w8w6_different && (p.chi_pages == 3) then ['!', '~']
  else if !p.autoskip && p.w8w6_different && (p.chi_pages == 2) then ['~']
  else if !p.autoskip && !p.w8w6_different && (p.chi_pages == 3) then ['!', '!']
  else if !p.autoskip && !p.w8w6_different && (p.chi_pages == 2) then ['!']
  else if p.autoskip then ['_']
  else []

/-! ### Helper lemmas about the embedded string primitives -/

theorem startswith_cons_false (base : Str) (a : Char)
    (h : startswith base [a] = false) :
    ∀ ps : Str, startswith base (a :: ps) = false := by
  intro ps
  cases base with
  | nil => simp [startswith]
  | cons c cs =>
    cases hac : (a == c) with
    | true => simp [startswith, hac] at h
    | false => simp [startswith, hac]

theorem startswith_append_drop (p : Str) :
    ∀ s : Str, startswith s p = true → p ++ s.drop p.length = s := by
  induction p with
  | nil => intro s _; simp
  | cons a ps ih =>
    intro s h
    cases s with
    | nil => simp [startswith] at h
    | cons c cs =>
      simp only [startswith, Bool.and_eq_true, beq_iff_eq] at h
      simp only [List.length_cons, List.drop_succ_cons, List.cons_append,
        h.1, ih cs h.2]

theorem strip_em_concat (l : Str) : strip_em (l ++ ['!']) = (true, l) := by
  simp [strip_em, endswith, List.getLast?_concat]

theorem strip_em_of_not_bang (s : Str) (h : endswith s '!' = false) :
    strip_em s = (false, s) := by
  simp [strip_em, h]

theorem endswith_append_cons (l : Str) (c : Char) (cs : Str) :
    endswith (l ++ c :: cs) '!' = endswith (c :: cs) '!' := by
  simp [endswith, List.getLast?_append_cons]

/-! ### Helper lemmas about the prefix chain -/

theorem parse_pfx_no_match (em : Bool) (base : Str)
    (h1 : startswith base ['_'] = false) (h2 : startswith base ['!'] = false)
    (h3 : startswith base ['~'] = false) :
    parse_pfx em base = { eng_multiline := em, base_name := base } := by
  have d1 := startswith_cons_false base '_' h1
  have d2 := startswith_cons_false base '!' h2
  have d3 := startswith_cons_false base '~' h3
  simp [parse_pfx, d1, d2, d3]

theorem parse_pfx_base_name (pfx : Str) (hp : pfx ∈ enc_pfx_list) (em : Bool)
    (base : Str)
    (h1 : startswith base ['_'] = false) (h2 : startswith base ['!'] = false)
    (h3 : startswith base ['~'] = false) :
    (parse_pfx em (pfx ++ base)).base_name = base := by
  have d1 := startswith_cons_false base '_' h1
  have d2 := startswith_cons_false base '!' h2
  have d3 := startswith_cons_false base '~' h3
  simp only [enc_pfx_list, List.mem_cons, List.not_mem_nil, or_false] at hp
  rcases hp with rfl | rfl | rfl | rfl | rfl | rfl | rfl | rfl | rfl | rfl <;>
    simp [parse_pfx, startswith, d1, d2, d3, h1, h2, h3]

theorem decode_append_bang (pfx : Str) (hp : pfx ∈ enc_pfx_list) (base : Str)
    (h1 : startswith base ['_'] = false) (h2 : startswith base ['!'] = false)
    (h3 : startswith base ['~'] = false) :
    (decode_stop_name ((pfx ++ base) ++ ['!'])).base_name = base := by
  simp only [decode_stop_name, strip_em_concat]
  exact parse_pfx_base_name pfx hp true base h1 h2 h3

theorem decode_no_bang (pfx : Str) (hp : pfx ∈ enc_pfx_list) (base : Str)
    (h1 : startswith base ['_'] = false) (h2 : startswith base ['!'] = false)
    (h3 : startswith base ['~'] = false)
    (hsuf : endswith base '!' = false) :
    (decode_stop_name (pfx ++ base)).base_name = base := by
  cases base with
  | nil =>
    simp only [enc_pfx_list, List.mem_cons, List.not_mem_nil, or_false] at hp
    rcases hp with rfl | rfl | rfl | rfl | rfl | rfl | rfl | rfl | rfl | rfl <;>
      decide
  | cons c cs =>
    have hst : strip_em (pfx ++ c :: cs) = (false, pfx ++ c :: cs) :=
      strip_em_of_not_bang _ (by rw [endswith_append_cons]; exact hsuf)
    simp only [decode_stop_name, hst]
    exact parse_pfx_base_name pfx hp false (c :: cs) h1 h2 h3

theorem decode_pb (pfx : Str) (hp : pfx ∈ enc_pfx_list) (base : Str)
    (h1 : startswith base ['_'] = false) (h2 : startswith base ['!'] = false)
    (h3 : startswith base ['~'] = false)
    (hsuf : endswith base '!' = false) (k : Int) :
    (decode_stop_name ((pfx ++ base) ++ (if k > 2 then ['!'] else []))).base_name
      = base := by
  by_cases hk : k > 2
  · rw [if_pos hk]
    exact decode_append_bang pfx hp base h1 h2 h3
  · rw [if_neg hk, List.append_nil]
    exact decode_no_bang pfx hp base h1 h2 h3 hsuf

theorem tok_of_range (p : StopNameProperties) :
    tok_of p = [] ∨ tok_of p ∈ tokens := by
  unfold tok_of
  repeat' split
  all_goals simp [tokens]

theorem parse_pfx_decomp (em : Bool) (name : Str) :
    tok_of (parse_pfx em name) ++ (parse_pfx em name).base_name = name ∧
    (parse_pfx em name).eng_multiline = em := by
  unfold parse_pfx
  repeat' split
  all_goals refine ⟨?_, rfl⟩
  all_goals first
    | (rename_i h; simpa [tok_of] using startswith_append_drop _ name h)
    | simp [tok_of]

/-- C3: decoding `"_!~X"` matches the longest token `"_!~"` first (not the
shorter `"_!"`), yielding autoskip, width-variant split, 3 Chinese pages and
base name `"X"`. -/
theorem decode_priority_greedy :
    decode_stop_name ['_', '!', '~', 'X'] =
      { autoskip := true, w8w6_different := true, chi_pages := 3,
        eng_multiline := false, base_name := ['X'] } := by
  decide

/-- C2: for each of the nine prefix-token rows of the table and for
`eng_at_count` 0 and 3, encoding `"Main St"` and decoding the result recovers
exactly the same autoskip, width-variant-split, Chinese-pages and
english-multiline (true iff the count was 3) values. -/
theorem roundtrip_table_rows :
    (([(true, true, (3 : Int)), (true, true, 2), (true, false, 3),
       (true, false, 2), (false, true, 3), (false, true, 2),
       (false, false, 3), (false, false, 2), (true, false, 1)] :
        List (Bool × Bool × Int)).all fun r =>
      (([0, 3] : List Int).all fun k =>
        let p := decode_stop_name
          (encode_stop_name "Main St".toList r.1 r.2.1 r.2.2 k)
        (p.autoskip == r.1) && (p.w8w6_different == r.2.1) &&
          (p.chi_pages == r.2.2) && (p.eng_multiline == (k == 3)))) = true := by
  decide

/-- C8: `update_stop_name_from_ui "!!Old Town" true false 2 "a@b@c@@"` decodes
the current name to base `"Old Town"`, counts 4 `'@'` characters (> 2, so
suffix `"!"`), and re-encodes with the new flags (prefix `"_!"`), giving
`"_!Old Town!"`. -/
theorem update_from_ui_example :
    update_stop_name_from_ui "!!Old Town".toList true false 2 "a@b@c@@".toList
      = "_!Old Town!".toList := by
  decide

/-- C1: for any flag set with `chi_pages` in `{1,2,3}` and any base name that
starts with no recognized prefix token and does not end in `'!'`, decoding the
encoded string recovers exactly the original base name. -/
theorem decode_encode_roundtrip_base (base : Str) (a w : Bool) (cp k : Int)
    (hcp : cp = 1 ∨ cp = 2 ∨ cp = 3)
    (hpre : ∀ t ∈ tokens, startswith base t = false)
    (hsuf : endswith base '!' = false) :
    (decode_stop_name (encode_stop_name base a w cp k)).base_name = base := by
  have h1 : startswith base ['_'] = false := hpre _ (by decide)
  have h2 : startswith base ['!'] = false := hpre _ (by decide)
  have h3 : startswith base ['~'] = false := hpre _ (by decide)
  rcases hcp with rfl | rfl | rfl <;> cases a <;> cases w
  · exact decode_pb [] (by decide) base h1 h2 h3 hsuf k
  · exact decode_pb [] (by decide) base h1 h2 h3 hsuf k
  · exact decode_pb ['_'] (by decide) base h1 h2 h3 hsuf k
  · exact decode_pb ['_'] (by decide) base h1 h2 h3 hsuf k
  · exact decode_pb ['!'] (by decide) base h1 h2 h3 hsuf k
  · exact decode_pb ['~'] (by decide) base h1 h2 h3 hsuf k
  · exact decode_pb ['_', '!'] (by decide) base h1 h2 h3 hsuf k
  · exact decode_pb ['_', '~'] (by decide) base h1 h2 h3 hsuf k
  · exact decode_pb ['!', '!'] (by decide) base h1 h2 h3 hsuf k
  · exact decode_pb ['!', '~'] (by decide) base h1 h2 h3 hsuf k
  · exact decode_pb ['_', '!', '!'] (by decide) base h1 h2 h3 hsuf k
  · exact decode_pb ['_', '!', '~'] (by decide) base h1 h2 h3 hsuf k

/-- Witness for C1 at a concrete input. -/
theorem decode_encode_roundtrip_base_witness :
    (decode_stop_name (encode_stop_name ['X'] true true 3 5)).base_name
      = ['X'] :=
  decode_encode_roundtrip_base ['X'] true true 3 5 (by decide) (by decide)
    (by decide)

/-- C4 counterexample: `"_X"` does not end in `'!'`, yet decoding
`"_X" ++ "!"` does not return base name `"_X"` (the `"_"` token is stripped
as well, so the base name becomes `"X"`). -/
theorem suffix_roundtrip_counterexample :
    endswith ['_', 'X'] '!' = false ∧
    ¬ ((decode_stop_name (['_', 'X'] ++ ['!'])).eng_multiline = true ∧
       (decode_stop_name (['_', 'X'] ++ ['!'])).base_name = ['_', 'X']) := by
  decide

/-- C4 amended: for every base name that does not end in `'!'` and also starts
with no recognized prefix token, decoding `base_name ++ "!"` returns
`eng_multiline = true` and base name equal to the given one (the trailing
`'!'` is stripped once, before prefix matching). -/
theorem suffix_roundtrip_amended (base : Str)
    (hsuf : endswith base '!' = false)
    (hpre : ∀ t ∈ tokens, startswith base t = false) :
    (decode_stop_name (base ++ ['!'])).eng_multiline = true ∧
    (decode_stop_name (base ++ ['!'])).base_name = base := by
  have h1 : startswith base ['_'] = false := hpre _ (by decide)
  have h2 : startswith base ['!'] = false := hpre _ (by decide)
  have h3 : startswith base ['~'] = false := hpre _ (by decide)
  have hd : decode_stop_name (base ++ ['!'])
      = { eng_multiline := true, base_name := base } := by
    simp only [decode_stop_name, strip_em_concat]
    exact parse_pfx_no_match true base h1 h2 h3
  rw [hd]
  exact ⟨rfl, rfl⟩

/-- Witness for the amended C4 at a concrete input. -/
theorem suffix_roundtrip_amended_witness :
    (decode_stop_name (['X'] ++ ['!'])).eng_multiline = true ∧
    (decode_stop_name (['X'] ++ ['!'])).base_name = ['X'] :=
  suffix_roundtrip_amended ['X'] (by decide) (by decide)

/-- C5: decode is a total function; the empty string decodes to all-default
flags with empty base name, and any input matching no prefix token and not
ending in `'!'` decodes to all-default flags with base name equal to the
input. -/
theorem decode_total_default_flags :
    decode_stop_name [] =
      { autoskip := false, w8w6_different := false, chi_pages := 1,
        eng_multiline := false, base_name := [] } ∧
    ∀ s : Str, (∀ t ∈ tokens, startswith s t = false) →
      endswith s '!' = false →
      decode_stop_name s =
        { autoskip := false, w8w6_different := false, chi_pages := 1,
          eng_multiline := false, base_name := s } := by
  refine ⟨by decide, ?_⟩
  intro s hpre hsuf
  have h1 : startswith s ['_'] = false := hpre _ (by decide)
  have h2 : startswith s ['!'] = false := hpre _ (by decide)
  have h3 : startswith s ['~'] = false := hpre _ (by decide)
  simp only [decode_stop_name, strip_em_of_not_bang s hsuf]
  exact parse_pfx_no_match false s h1 h2 h3

/-- Witness for C5 at a concrete input. -/
theorem decode_total_default_flags_witness :
    decode_stop_name ['E', 'l', 'm'] =
      { autoskip := false, w8w6_different := false, chi_pages := 1,
        eng_multiline := false, base_name := ['E', 'l', 'm'] } :=
  decode_total_default_flags.2 ['E', 'l', 'm'] (by decide) (by decide)

/-- C6: encode never fails on any `chi_pages` value; for any `chi_pages`
outside `{2,3}` it produces exactly the string it would produce with
`chi_pages = 1` (no Chinese-page token). -/
theorem encode_pages_out_of_range (base : Str) (a w : Bool) (k e : Int)
    (hk2 : k ≠ 2) (hk3 : k ≠ 3) :
    encode_stop_name base a w k e = encode_stop_name base a w 1 e := by
  have b2 : (k == 2) = false := by simpa using hk2
  have b3 : (k == 3) = false := by simpa using hk3
  have r2 : (((1 : Int) == 2) : Bool) = false := by decide
  have r3 : (((1 : Int) == 3) : Bool) = false := by decide
  simp only [encode_stop_name, b2, b3, r2, r3]

/-- Witness for C6 at a concrete input. -/
theorem encode_pages_out_of_range_witness :
    encode_stop_name ['X'] false false 0 0
      = encode_stop_name ['X'] false false 1 0 :=
  encode_pages_out_of_range ['X'] false false 0 0 (by decide) (by decide)

/-- C7: with `w8w6_different = true`, `chi_pages = 1`, `autoskip = false` and
`eng_at_count ≤ 2`, encode returns the base name unchanged (empty prefix and
suffix); for a base name matching no prefix token and not ending in `'!'`,
decoding that result yields `w8w6_different = false` — the split flag is
silently lost in the round trip. -/
theorem encode_split_one_page_lossy (base : Str) (e : Int) (he : e ≤ 2)
    (hpre : ∀ t ∈ tokens, startswith base t = false)
    (hsuf : endswith base '!' = false) :
    encode_stop_name base false true 1 e = base ∧
    (decode_stop_name (encode_stop_name base false true 1 e)).w8w6_different
      = false := by
  have h1 : startswith base ['_'] = false := hpre _ (by decide)
  have h2 : startswith base ['!'] = false := hpre _ (by decide)
  have h3 : startswith base ['~'] = false := hpre _ (by decide)
  have hk : ¬ (e > 2) := not_lt.mpr he
  have henc : encode_stop_name base false true 1 e = base := by
    show (([] : Str) ++ base) ++ (if e > 2 then ['!'] else []) = base
    rw [if_neg hk, List.append_nil, List.nil_append]
  refine ⟨henc, ?_⟩
  rw [henc]
  simp only [decode_stop_name, strip_em_of_not_bang base hsuf]
  rw [parse_pfx_no_match false base h1 h2 h3]

/-- Witness for C7 at a concrete input. -/
theorem encode_split_one_page_lossy_witness :
    encode_stop_name ['X'] false true 1 0 = ['X'] ∧
    (decode_stop_name (encode_stop_name ['X'] false true 1 0)).w8w6_different
      = false :=
  encode_split_one_page_lossy ['X'] 0 (by decide) (by decide) (by decide)

/-- C9: decomposition invariant of decode — every input string is exactly the
token determined by the decoded flags (empty or one of the nine vocabulary
tokens), followed by the decoded base name, followed by `"!"` exactly when
`eng_multiline` was decoded; decode only removes characters at the two ends. -/
theorem decode_decomposition (s : Str) :
    (tok_of (decode_stop_name s) = [] ∨ tok_of (decode_stop_name s) ∈ tokens) ∧
    s = (tok_of (decode_stop_name s) ++ (decode_stop_name s).base_name)
        ++ (if (decode_stop_name s).eng_multiline then ['!'] else []) := by
  refine ⟨tok_of_range _, ?_⟩
  by_cases hb : endswith s '!' = true
  · have hlast : s.getLast? = some '!' := by
      have := hb
      rwa [endswith, beq_iff_eq] at this
    have hs : s = s.dropLast ++ ['!'] :=
      (List.dropLast_append_getLast? '!' (by simp [Option.mem_def, hlast])).symm
    have hstrip : strip_em s = (true, s.dropLast) := by
      simp [strip_em, hb]
    have hd := parse_pfx_decomp true s.dropLast
    simp only [decode_stop_name, hstrip]
    rw [hd.2, if_pos rfl, hd.1]
    exact hs
  · have hb' : endswith s '!' = false := by simpa using hb
    have hstrip := strip_em_of_not_bang s hb'
    have hd := parse_pfx_decomp false s
    simp only [decode_stop_name, hstrip]
    rw [hd.2, if_neg (by simp), List.append_nil, hd.1]

/-- C10: with an empty base name, `encode [] false false 3 0` returns `"!!"`,
but `decode "!!"` consumes the trailing `'!'` as the multiline suffix first
and then matches the token `"!"`, yielding `chi_pages = 2` and
`eng_multiline = true` — the flags are not recovered even though the empty
base name matches no prefix token and does not end in `'!'`. -/
theorem encode_empty_base_flag_loss :
    encode_stop_name [] false false 3 0 = ['!', '!'] ∧
    (decode_stop_name ['!', '!']).chi_pages = 2 ∧
    (decode_stop_name ['!', '!']).eng_multiline = true ∧
    (∀ t ∈ tokens, startswith [] t = false) ∧
    endswith [] '!' = false := by
  decide
